import Mathlib

/-!
Verification of the clear-sky-day filter (`src/ClearSkyDayFinder.py`).

The Python source works on polars data frames whose rows carry a timestamp,
a power value and a module id.  We embed a row as a record over `ℚ`:
`time` is the absolute timestamp in minutes since the epoch (whole-second
timestamps are exactly representable), `power` the measured power and `mid`
the module id.  Derived quantities follow the source:

* `add_daytime` computes `hour*60 + minute + second/60`, i.e. the time of
  day in minutes; for a timestamp `t` in minutes this is `t - 1440*⌊t/1440⌋`.
* `dt.date()` yields the calendar date, i.e. `⌊t/1440⌋`.
* `group_by_dynamic(every="30d", closed="right")` buckets timestamps into
  right-closed windows whose boundaries are whole multiples of the window
  length counted from the epoch, i.e. window `⌈t/(1440*w)⌉` for length `w`
  days.

Floating-point arithmetic is modelled by exact rational arithmetic; the
Pearson correlation coefficient, the only irrational quantity, is handled
through its square-root-free characterisation (see `corrGTb` and
`corrGTb_iff`).
-/

namespace ClearSky

/-- One measurement row: timestamp (minutes since epoch), power, module id. -/
structure Row where
  time : ℚ
  power : ℚ
  mid : ℤ
deriving DecidableEq, Repr

/-- Kernel-reducible floor of a rational (`/` on `ℤ` rounds down). -/
def qfloor (q : ℚ) : ℤ := q.num / q.den

/-- Kernel-reducible ceiling of a rational. -/
def qceil (q : ℚ) : ℤ := -qfloor (-q)

theorem qfloor_eq (q : ℚ) : qfloor q = ⌊q⌋ := Rat.floor_def.symm

theorem qceil_eq (q : ℚ) : qceil q = ⌈q⌉ := by
  rw [qceil, qfloor_eq, ← Int.ceil_neg, neg_neg]

/-- Calendar date of a timestamp (`dt.date()` in the source). -/
def dayOf (t : ℚ) : ℤ := qfloor (t / 1440)

/-- Time of day in minutes (`add_daytime` in the source:
`hour*60 + minute + second/60`). -/
def dayTimeOf (t : ℚ) : ℚ := t - 1440 * dayOf t

/-- Comparison window index for window length `w` days
(`group_by_dynamic(every=f"{w}d", closed="right")`). -/
def windowOf (w : ℕ) (t : ℚ) : ℤ := qceil (t / (1440 * w))

/-- Ascending sort of rational values (`.sort()` on a column). -/
def sortedQ (qs : List ℚ) : List ℚ := List.insertionSort (· ≤ ·) qs

/-- Ascending sort of window indices. -/
def sortedZ (zs : List ℤ) : List ℤ := List.insertionSort (· ≤ ·) zs

/-- Sort rows by time of day (`.sort("day_time")` in the source). -/
def sortDay (rows : List Row) : List Row :=
  List.insertionSort (fun a b => dayTimeOf a.time ≤ dayTimeOf b.time) rows

/-- Differences of consecutive entries (`array[1:] - array[:-1]`). -/
def consecDiffs (qs : List ℚ) : List ℚ := List.zipWith (· - ·) qs.tail qs

/-- `np.median`: sort, take the middle entry, or the mean of the two middle
entries for even length.  `np.median` of an empty array is NaN; NaN is
represented by `none`. -/
def medianQ (qs : List ℚ) : Option ℚ :=
  let s := sortedQ qs
  if s.length = 0 then none
  else if s.length % 2 = 1 then some (s.getD (s.length / 2) 0)
  else some ((s.getD (s.length / 2 - 1) 0 + s.getD (s.length / 2) 0) / 2)

/-- `get_frequence`: median of the consecutive differences of the day-time
values of all samples of one stream, sorted by day time (the median
inter-sample spacing in minutes).  `none` models the NaN produced for a
stream with fewer than two samples. -/
def getFrequence (rows : List Row) : Option ℚ :=
  medianQ (consecDiffs (sortedQ (rows.map (fun r => dayTimeOf r.time))))

/-- `np.max` of the power column of a stream (streams are nonempty in the
pipeline; the `0` default is never reached there). -/
def maxPower (rows : List Row) : ℚ :=
  match rows.map (fun r => r.power) with
  | [] => 0
  | h :: t => t.foldl max h

/-- The six tunables that `get_clearskydays` resolves from frequency-bucketed
defaults when unset.  They are Python locals of the enclosing function, so a
value resolved in one loop iteration persists into the next (see
`resolveChain`). -/
structure ResolveState where
  minPts : Option ℤ
  prep : Option ℕ
  smooth : Option ℕ
  hole : Option ℚ
  nMax : Option ℤ
  maxDist : Option ℚ
deriving DecidableEq, Repr

/-- The state in which every tunable is unset. -/
def emptyState : ResolveState := ⟨none, none, none, none, none, none⟩

/-- `frequence <= c` on the float `frequence`; comparisons with NaN
(modelled by `none`) are false. -/
def freqLE (f : Option ℚ) (c : ℚ) : Bool :=
  match f with
  | none => false
  | some q => decide (q ≤ c)

/-- `frequence > c`; false for NaN. -/
def freqGT (f : Option ℚ) (c : ℚ) : Bool :=
  match f with
  | none => false
  | some q => decide (c < q)

/-- The five-way `if/elif/else` frequency bucket used throughout the default
resolution.  A NaN frequency falls through every comparison into the `else`
branch. -/
def bucket5 {α : Type} (f : Option ℚ) (v1 v2 v3 v4 v5 : α) : α :=
  if freqLE f 1 then v1
  else if freqGT f 1 && freqLE f 5 then v2
  else if freqGT f 5 && freqLE f 10 then v3
  else if freqGT f 10 && freqLE f 15 then v4
  else v5

/-- Lines 113-172 of the source: fill every still-unset tunable from the
frequency-bucketed default table, in source order.  `f` is the `frequence`
local (the median spacing in minutes multiplied by 60), `mp` the maximum
observed power of the stream.  The `hole` block reproduces line 156
faithfully: in its `else` branch the source assigns `120` to
`min_number_of_datapoints` (overwriting the value resolved moments before)
and leaves `hole_size_threshold` unset. -/
def resolveDefaults (st : ResolveState) (f : Option ℚ) (mp : ℚ) : ResolveState :=
  let m1 : Option ℤ :=
    match st.minPts with
    | none => some (bucket5 f 300 100 70 45 20)
    | some v => some v
  let p1 : Option ℕ :=
    match st.prep with
    | none => some (bucket5 f 10 5 2 2 2)
    | some v => some v
  let s1 : Option ℕ :=
    match st.smooth with
    | none => some (bucket5 f 60 30 15 10 2)
    | some v => some v
  let hm : Option ℚ × Option ℤ :=
    match st.hole with
    | some v => (some v, m1)
    | none =>
      if freqLE f 1 then (some 30, m1)
      else if freqGT f 1 && freqLE f 5 then (some 30, m1)
      else if freqGT f 5 && freqLE f 10 then (some 50, m1)
      else if freqGT f 10 && freqLE f 15 then (some 60, m1)
      else (none, some 120)
  let n1 : Option ℤ :=
    match st.nMax with
    | none => some (bucket5 f 300 100 70 45 20)
    | some v => some v
  let d1 : Option ℚ :=
    match st.maxDist with
    | none => some (mp * (3 / 10))
    | some v => some v
  ⟨hm.2, p1, s1, hm.1, n1, d1⟩

/-- The `frequence` local of `get_clearskydays` (line 113):
`get_frequence(module_data) * 60`. -/
def frequenceOf (rows : List Row) : Option ℚ :=
  (getFrequence rows).map (fun q => q * 60)

/-- The per-iteration states of the tunables across the stream loop: each
stream resolves the still-unset fields of the state left behind by the
previous stream, because the tunables are locals of the enclosing function.
Element `j` is the state in effect while stream `j` is processed. -/
def resolveChain (st : ResolveState) : List (ℤ × List Row) → List ResolveState
  | [] => []
  | p :: rest =>
    let st' := resolveDefaults st (frequenceOf p.2) (maxPower p.2)
    st' :: resolveChain st' rest

/-- A stream sampled every 5.0 minutes (median day-time spacing 5). -/
def stream5min : List Row := [⟨0, 0, 7⟩, ⟨5, 0, 7⟩, ⟨10, 0, 7⟩]

/-- A stream sampled every 5.0 seconds (median day-time spacing 1/12). -/
def stream5sec : List Row := [⟨0, 0, 1⟩, ⟨1/12, 0, 1⟩, ⟨1/6, 0, 1⟩]

/-- C1, counterexample.  For the stream `stream5min`, whose estimated median
inter-sample spacing is 5.0 minutes, resolving the unset tunables does NOT
yield `min_points=100`, `pre_smooth=5`, `post_smooth=30`, `gap_threshold=30`,
`max_exceed_count=100`: the source multiplies the median spacing (minutes)
by 60 before bucketing, so a 5.0-minute spacing gives `frequence = 300` and
falls into the topmost bucket (and the gap-threshold branch then overwrites
`min_points` with 120). -/
theorem c1_counterexample :
    getFrequence stream5min = some 5 ∧
    ¬ ((resolveDefaults emptyState (frequenceOf stream5min) (maxPower stream5min)).minPts
          = some 100 ∧
       (resolveDefaults emptyState (frequenceOf stream5min) (maxPower stream5min)).prep
          = some 5 ∧
       (resolveDefaults emptyState (frequenceOf stream5min) (maxPower stream5min)).smooth
          = some 30 ∧
       (resolveDefaults emptyState (frequenceOf stream5min) (maxPower stream5min)).hole
          = some 30 ∧
       (resolveDefaults emptyState (frequenceOf stream5min) (maxPower stream5min)).nMax
          = some 100) := by
  with_unfolding_all decide

/-- C1, amended.  For every stream whose estimated median inter-sample
spacing is 5.0 seconds (median day-time spacing 1/12 minutes, so that the
`frequence` local is 5.0), resolving the unset tunables yields
`min_points=100`, `pre_smooth=5`, `post_smooth=30`, `gap_threshold=30` and
`max_exceed_count=100` — the `1 < f <= 5` bucket of the frequency table. -/
theorem c1_amended (rows : List Row) (mp : ℚ) (h : getFrequence rows = some (1/12)) :
    (resolveDefaults emptyState (frequenceOf rows) mp).minPts = some 100 ∧
    (resolveDefaults emptyState (frequenceOf rows) mp).prep = some 5 ∧
    (resolveDefaults emptyState (frequenceOf rows) mp).smooth = some 30 ∧
    (resolveDefaults emptyState (frequenceOf rows) mp).hole = some 30 ∧
    (resolveDefaults emptyState (frequenceOf rows) mp).nMax = some 100 := by
  have hf : frequenceOf rows = some 5 := by
    rw [frequenceOf, h]
    norm_num
  rw [hf]
  norm_num [resolveDefaults, emptyState, bucket5, freqLE, freqGT]

/-- Witness for `c1_amended` at the concrete stream `stream5sec`. -/
theorem c1_amended_witness :
    getFrequence stream5sec = some (1/12) ∧
    ((resolveDefaults emptyState (frequenceOf stream5sec) 0).minPts = some 100 ∧
     (resolveDefaults emptyState (frequenceOf stream5sec) 0).prep = some 5 ∧
     (resolveDefaults emptyState (frequenceOf stream5sec) 0).smooth = some 30 ∧
     (resolveDefaults emptyState (frequenceOf stream5sec) 0).hole = some 30 ∧
     (resolveDefaults emptyState (frequenceOf stream5sec) 0).nMax = some 100) :=
  ⟨by with_unfolding_all decide, c1_amended stream5sec 0 (by with_unfolding_all decide)⟩

/-- A stream sampled every second (its `frequence` local is 1, the `f <= 1`
bucket), with maximum power 10. -/
def c2streamA : List Row := [⟨0, 2, 1⟩, ⟨1/60, 10, 1⟩, ⟨2/60, 3, 1⟩]

/-- A stream sampled every 2 minutes (its `frequence` local is 120, the
topmost bucket), with maximum power 100. -/
def c2streamB : List Row := [⟨0, 50, 2⟩, ⟨2, 100, 2⟩, ⟨4, 60, 2⟩]

/-- C2.  With two streams of different sampling rates and all tunables
unset, the second stream is processed with the values resolved for the
first stream (the tunables are locals of `get_clearskydays`, so after the
first iteration they are no longer `None`), while resolution from the
second stream's own frequency and own maximum power would give different
values.  Stream A (1-second spacing, max power 10) resolves
`min_points=300` and `max_dist=3`; stream B (2-minute spacing, max power
100) is then also processed with 300 and 3, although its own resolution
would give `min_points=120` and `max_dist=30`. -/
theorem c2_param_sharing :
    (resolveChain emptyState [(1, c2streamA), (2, c2streamB)]).getD 1 emptyState
      = (resolveChain emptyState [(1, c2streamA), (2, c2streamB)]).getD 0 emptyState ∧
    ((resolveChain emptyState [(1, c2streamA), (2, c2streamB)]).getD 1 emptyState).minPts
      = some 300 ∧
    ((resolveChain emptyState [(1, c2streamA), (2, c2streamB)]).getD 1 emptyState).maxDist
      = some 3 ∧
    (resolveDefaults emptyState (frequenceOf c2streamB) (maxPower c2streamB)).minPts
      = some 120 ∧
    (resolveDefaults emptyState (frequenceOf c2streamB) (maxPower c2streamB)).maxDist
      = some 30 := by
  with_unfolding_all decide

/-- C9.  When the gap threshold (`hole_size_threshold`) is unset and the
estimated frequency falls in the topmost bucket (`f > 15`), the
default-resolution step assigns 120 to `min_number_of_datapoints` instead
of to the gap threshold, leaving the gap threshold unset (line 156 of the
source). -/
theorem c9_hole_bucket_bug (st : ResolveState) (q mp : ℚ)
    (h1 : st.hole = none) (h2 : 15 < q) :
    (resolveDefaults st (some q) mp).minPts = some 120 ∧
    (resolveDefaults st (some q) mp).hole = none := by
  have e1 : freqLE (some q) 1 = false := by
    simp only [freqLE, decide_eq_false_iff_not]
    linarith
  have e5 : freqLE (some q) 5 = false := by
    simp only [freqLE, decide_eq_false_iff_not]
    linarith
  have e10 : freqLE (some q) 10 = false := by
    simp only [freqLE, decide_eq_false_iff_not]
    linarith
  have e15 : freqLE (some q) 15 = false := by
    simp only [freqLE, decide_eq_false_iff_not]
    linarith
  simp [resolveDefaults, h1, e1, e5, e10, e15]

/-- Witness for `c9_hole_bucket_bug` at the all-unset state and `f = 20`. -/
theorem c9_hole_bucket_bug_witness :
    (emptyState.hole = none ∧ (15 : ℚ) < 20) ∧
    ((resolveDefaults emptyState (some 20) 7).minPts = some 120 ∧
     (resolveDefaults emptyState (some 20) 7).hole = none) :=
  ⟨⟨rfl, by norm_num⟩, c9_hole_bucket_bug emptyState 20 7 rfl (by norm_num)⟩

/-- The maximum difference between consecutive day-time values after
sorting (`np.nanmax(array[1:] - array[:-1])`); `none` when there are no
consecutive pairs. -/
def maxConsecGap (rows : List Row) : Option ℚ :=
  match consecDiffs (sortedQ (rows.map (fun r => dayTimeOf r.time))) with
  | [] => none
  | h :: t => some (t.foldl max h)

/-- `_bad_holes_check`: for more than 4 samples, pass iff the maximum
consecutive day-time gap is strictly below the threshold and report the
gap; otherwise fail with no reported gap.  The function is total: a day
with 4 or fewer samples is rejected, not an error. -/
def badHolesCheck (rows : List Row) (thr : ℚ) : Bool × Option ℚ :=
  if 4 < rows.length then
    match maxConsecGap rows with
    | some m => (decide (m < thr), some m)
    | none => (false, none)
  else (false, none)

/-- C5.  The gap check rejects (without raising) every day with 4 or fewer
samples regardless of the threshold, and for a day with at least 5 samples
it passes iff the maximum consecutive sorted day-time gap is strictly less
than the threshold — so a maximum gap exactly equal to the threshold is
rejected. -/
theorem c5_gap_check (rows : List Row) (thr : ℚ) :
    (rows.length ≤ 4 → badHolesCheck rows thr = (false, none)) ∧
    (4 < rows.length →
      ((badHolesCheck rows thr).1 = true ↔
        ∃ m, maxConsecGap rows = some m ∧ m < thr)) := by
  constructor
  · intro h
    rw [badHolesCheck, if_neg (by omega)]
  · intro h
    rw [badHolesCheck, if_pos h]
    cases hm : maxConsecGap rows with
    | none => simp
    | some m => simp [hm]

/-- A concrete day with 5 samples, used as witness input. -/
def gapRows : List Row := [⟨10, 0, 3⟩, ⟨100, 5, 3⟩, ⟨200, 9, 3⟩, ⟨300, 5, 3⟩, ⟨340, 0, 3⟩]

/-- Witness for `c5_gap_check` at a 5-sample day and threshold 150. -/
theorem c5_gap_check_witness :
    4 < gapRows.length ∧
    ((badHolesCheck gapRows 150).1 = true ↔
      ∃ m, maxConsecGap gapRows = some m ∧ m < 150) :=
  ⟨by with_unfolding_all decide, (c5_gap_check gapRows 150).2 (by with_unfolding_all decide)⟩

/-- Numerator of the Pearson correlation coefficient scaled by `n`:
`n * Σxy - Σx * Σy`. -/
def covNum (xs ys : List ℚ) : ℚ :=
  (xs.length : ℚ) * (List.zipWith (· * ·) xs ys).sum - xs.sum * ys.sum

/-- Scaled variance `n * Σx² - (Σx)²`; the Pearson correlation of `xs` and
`ys` is `covNum / sqrt (varNum xs * varNum ys)` (the `n`-scalings cancel). -/
def varNum (xs : List ℚ) : ℚ :=
  (xs.length : ℚ) * (xs.map (fun x => x ^ 2)).sum - xs.sum ^ 2

theorem sum_sq_sub (x : ℚ) (xs : List ℚ) :
    (xs.map (fun y => (x - y) ^ 2)).sum
      = (xs.length : ℚ) * x ^ 2 - 2 * x * xs.sum + (xs.map (fun y => y ^ 2)).sum := by
  induction xs with
  | nil => simp
  | cons y ys ih =>
    simp only [List.map_cons, List.sum_cons, List.length_cons, ih]
    push_cast
    ring

theorem varNum_cons (x : ℚ) (xs : List ℚ) :
    varNum (x :: xs) = varNum xs + (xs.map (fun y => (x - y) ^ 2)).sum := by
  simp only [varNum, sum_sq_sub, List.map_cons, List.sum_cons, List.length_cons]
  push_cast
  ring

theorem varNum_nonneg (xs : List ℚ) : 0 ≤ varNum xs := by
  induction xs with
  | nil => simp [varNum]
  | cons x xs ih =>
    rw [varNum_cons]
    have hsq : 0 ≤ (xs.map (fun y => (x - y) ^ 2)).sum := by
      apply List.sum_nonneg
      intro a ha
      obtain ⟨y, _, rfl⟩ := List.mem_map.mp ha
      positivity
    linarith

/-- If all entries of a list are equal, its scaled variance vanishes. -/
theorem varNum_eq_zero_of_const (xs : List ℚ)
    (h : ∀ a ∈ xs, ∀ b ∈ xs, a = b) : varNum xs = 0 := by
  induction xs with
  | nil => simp [varNum]
  | cons x xs ih =>
    rw [varNum_cons]
    have h1 : varNum xs = 0 := by
      apply ih
      intro a ha b hb
      exact h a (List.mem_cons_of_mem _ ha) b (List.mem_cons_of_mem _ hb)
    have h2 : (xs.map (fun y => (x - y) ^ 2)).sum = 0 := by
      have : ∀ a ∈ xs.map (fun y => (x - y) ^ 2), a = 0 := by
        intro a ha
        obtain ⟨y, hy, rfl⟩ := List.mem_map.mp ha
        have := h x (List.mem_cons_self _ _) y (List.mem_cons_of_mem _ hy)
        simp [← this]
      simpa using List.sum_eq_zero this
    rw [h1, h2, add_zero]

/-- The decision `corr > corr_threshold` on the Pearson correlation
`covNum / sqrt (varNum xs * varNum ys)`, in square-root-free form (see
`corrGTb_iff`).  `np.corrcoef` yields NaN for fewer than 2 samples or a
constant sequence, and a NaN comparison is false, which the first three
conjuncts capture. -/
def corrGTb (xs ys : List ℚ) (thr : ℚ) : Bool :=
  decide (2 ≤ xs.length) && decide (varNum xs ≠ 0) && decide (varNum ys ≠ 0) &&
    (if 0 ≤ thr then
      decide (0 < covNum xs ys) &&
        decide (thr ^ 2 * (varNum xs * varNum ys) < covNum xs ys ^ 2)
    else
      decide (0 ≤ covNum xs ys) ||
        decide (covNum xs ys ^ 2 < thr ^ 2 * (varNum xs * varNum ys)))

theorem real_corr_char (c t dx dy : ℝ) (hdx : 0 < dx) (hdy : 0 < dy) :
    (if 0 ≤ t then 0 < c ∧ t ^ 2 * (dx * dy) < c ^ 2
     else 0 ≤ c ∨ c ^ 2 < t ^ 2 * (dx * dy)) ↔
      t * Real.sqrt (dx * dy) < c := by
  have hprod : 0 < dx * dy := mul_pos hdx hdy
  have hs : 0 < Real.sqrt (dx * dy) := Real.sqrt_pos.mpr hprod
  have hs2 : Real.sqrt (dx * dy) ^ 2 = dx * dy := Real.sq_sqrt hprod.le
  have e : (t * Real.sqrt (dx * dy)) ^ 2 = t ^ 2 * (dx * dy) := by
    rw [mul_pow, hs2]
  split_ifs with ht
  · have hts : 0 ≤ t * Real.sqrt (dx * dy) := mul_nonneg ht hs.le
    constructor
    · rintro ⟨hc, hlt⟩
      nlinarith [e, hts, hc, hlt]
    · intro h
      have hc : 0 < c := lt_of_le_of_lt hts h
      refine ⟨hc, ?_⟩
      nlinarith [e, hts, h]
  · push_neg at ht
    have hts : t * Real.sqrt (dx * dy) < 0 := mul_neg_of_neg_of_pos ht hs
    constructor
    · rintro (hc | hsq)
      · linarith
      · by_cases hc : 0 ≤ c
        · linarith
        · push_neg at hc
          nlinarith [e, hsq, hc, hts]
    · intro h
      by_cases hc : 0 ≤ c
      · exact Or.inl hc
      · push_neg at hc
        right
        nlinarith [e, h, hc, hts]

/-- Characterisation of `corrGTb`: it decides exactly that the Pearson
correlation is defined and strictly exceeds the threshold, phrased as
`thr * sqrt (varNum xs * varNum ys) < covNum` over the reals. -/
theorem corrGTb_iff (xs ys : List ℚ) (thr : ℚ) :
    corrGTb xs ys thr = true ↔
      2 ≤ xs.length ∧ varNum xs ≠ 0 ∧ varNum ys ≠ 0 ∧
        (thr : ℝ) * Real.sqrt ((varNum xs : ℝ) * (varNum ys : ℝ)) < (covNum xs ys : ℝ) := by
  have hdx0 : (0 : ℚ) ≤ varNum xs := varNum_nonneg xs
  have hdy0 : (0 : ℚ) ≤ varNum ys := varNum_nonneg ys
  simp only [corrGTb, Bool.and_eq_true, decide_eq_true_eq]
  constructor
  · rintro ⟨⟨⟨hn, hdx⟩, hdy⟩, hrest⟩
    refine ⟨hn, hdx, hdy, ?_⟩
    have hdx' : (0 : ℝ) < (varNum xs : ℝ) := by
      exact_mod_cast lt_of_le_of_ne hdx0 (Ne.symm hdx)
    have hdy' : (0 : ℝ) < (varNum ys : ℝ) := by
      exact_mod_cast lt_of_le_of_ne hdy0 (Ne.symm hdy)
    rw [← real_corr_char _ _ _ _ hdx' hdy']
    split_ifs with ht
    · have ht' : (0 : ℚ) ≤ thr := by exact_mod_cast ht
      rw [if_pos ht'] at hrest
      simp only [Bool.and_eq_true, decide_eq_true_eq] at hrest
      constructor
      · exact_mod_cast hrest.1
      · exact_mod_cast hrest.2
    · have ht' : ¬ (0 : ℚ) ≤ thr := by exact_mod_cast ht
      rw [if_neg ht'] at hrest
      simp only [Bool.or_eq_true, decide_eq_true_eq] at hrest
      rcases hrest with h | h
      · exact Or.inl (by exact_mod_cast h)
      · exact Or.inr (by exact_mod_cast h)
  · rintro ⟨hn, hdx, hdy, hlt⟩
    refine ⟨⟨⟨hn, hdx⟩, hdy⟩, ?_⟩
    have hdx' : (0 : ℝ) < (varNum xs : ℝ) := by
      exact_mod_cast lt_of_le_of_ne hdx0 (Ne.symm hdx)
    have hdy' : (0 : ℝ) < (varNum ys : ℝ) := by
      exact_mod_cast lt_of_le_of_ne hdy0 (Ne.symm hdy)
    rw [← real_corr_char _ _ _ _ hdx' hdy'] at hlt
    split_ifs at hlt with ht
    · have ht' : (0 : ℚ) ≤ thr := by exact_mod_cast ht
      rw [if_pos ht']
      simp only [Bool.and_eq_true, decide_eq_true_eq]
      constructor
      · exact_mod_cast hlt.1
      · exact_mod_cast hlt.2
    · have ht' : ¬ (0 : ℚ) ≤ thr := by exact_mod_cast ht
      rw [if_neg ht']
      simp only [Bool.or_eq_true, decide_eq_true_eq]
      rcases hlt with h | h
      · exact Or.inl (by exact_mod_cast h)
      · exact Or.inr (by exact_mod_cast h)

/-- First-occurrence deduplication, used to model polars grouping.  For
`partition_by` (which maintains order) this is exact; for `group_by` the
row order produced by polars is unspecified, and first-occurrence order is
the canonical choice made by this embedding (see the development around
`postSmoothCurve` for where this matters). -/
def firstUniq {α : Type} [DecidableEq α] : List α → List α
  | [] => []
  | a :: l => a :: firstUniq (l.filter (fun b => decide (b ≠ a)))
  termination_by l => l.length
  decreasing_by
    simp only [List.length_cons]
    exact Nat.lt_succ_of_le (List.length_filter_le _ _)

theorem mem_firstUniq {α : Type} [DecidableEq α] (l : List α) (x : α) :
    x ∈ firstUniq l ↔ x ∈ l := by
  induction l using firstUniq.induct with
  | case1 => simp [firstUniq]
  | case2 a l ih =>
    rw [firstUniq]
    by_cases hx : x = a
    · subst hx
      simp
    · simp only [List.mem_cons, ih, List.mem_filter, decide_eq_true_eq]
      constructor
      · rintro (h | ⟨h, _⟩)
        · exact Or.inl h
        · exact Or.inr h
      · rintro (h | h)
        · exact Or.inl h
        · exact Or.inr ⟨h, by simpa using hx⟩

theorem nodup_firstUniq {α : Type} [DecidableEq α] (l : List α) :
    (firstUniq l).Nodup := by
  induction l using firstUniq.induct with
  | case1 => simp [firstUniq]
  | case2 a l ih =>
    rw [firstUniq]
    refine List.nodup_cons.mpr ⟨?_, ih⟩
    intro hmem
    have := (mem_firstUniq _ _).mp hmem
    have := (List.mem_filter.mp this).2
    simp at this

/-- Null-ignoring maximum (`pl.col(...).max()` skips nulls and yields null
only when every value of the group is null). -/
def maxOpt (l : List (Option ℚ)) : Option ℚ :=
  l.foldl
    (fun acc v =>
      match acc, v with
      | none, v => v
      | some a, none => some a
      | some a, some b => some (max a b))
    none

/-- `group_by("day_time").agg(col.max())`: one output pair per distinct
day-time key, holding the null-ignoring maximum of the group's values.
Keys are listed in first-occurrence order (polars leaves the group order
unspecified). -/
def groupMaxByDayTime (ps : List (ℚ × Option ℚ)) : List (ℚ × Option ℚ) :=
  (firstUniq (ps.map Prod.fst)).map
    (fun k => (k, maxOpt ((ps.filter (fun p => decide (p.1 = k))).map Prod.snd)))

/-- When the keys are pairwise distinct, grouping with the null-ignoring
maximum is the identity. -/
theorem groupMax_nodup (ps : List (ℚ × Option ℚ)) (h : (ps.map Prod.fst).Nodup) :
    groupMaxByDayTime ps = ps := by
  induction ps with
  | nil => simp [groupMaxByDayTime, firstUniq]
  | cons p ps ih =>
    simp only [List.map_cons, List.nodup_cons] at h
    obtain ⟨h1, h2⟩ := h
    have hfilter : (ps.map Prod.fst).filter (fun b => decide (b ≠ p.1)) = ps.map Prod.fst := by
      apply List.filter_eq_self.mpr
      intro b hb
      simp only [decide_eq_true_eq]
      intro hbe
      exact h1 (hbe ▸ hb)
    have hnil : ps.filter (fun q => decide (q.1 = p.1)) = [] := by
      apply List.filter_eq_nil_iff.mpr
      intro q hq
      simp only [decide_eq_true_eq]
      intro he
      exact h1 (he ▸ List.mem_map_of_mem Prod.fst hq)
    rw [groupMaxByDayTime, List.map_cons, firstUniq, hfilter, List.map_cons]
    congr 1
    · rw [List.filter_cons_of_pos (by simp), hnil]
      rfl
    · have : ∀ k ∈ firstUniq (ps.map Prod.fst),
          (k, maxOpt (((p :: ps).filter (fun q => decide (q.1 = k))).map Prod.snd))
            = (k, maxOpt ((ps.filter (fun q => decide (q.1 = k))).map Prod.snd)) := by
        intro k hk
        have hk' : k ∈ ps.map Prod.fst := (mem_firstUniq _ _).mp hk
        have hne : ¬ (p.1 = k) := fun he => h1 (he ▸ hk')
        rw [List.filter_cons_of_neg (by simpa using hne)]
      rw [List.map_congr_left this]
      exact ih h2

/-- One row of a clear-sky template frame: the day-time key, the
percentile-corrected envelope value (the frame's power column) and the
smoothed template value `tmp_power`.  `none` models a polars null. -/
structure TRow where
  dayTime : ℚ
  power : Option ℚ
  tmp : Option ℚ
deriving DecidableEq, Repr

/-- `rolling_mean(window_size=k, center=True)` with the polars default
`min_periods = k`: entry `i` becomes the mean of the `k` entries in the
window centred at `i` (for even `k` the window reaches one step further to
the left), and null whenever the window leaves the list or contains a
null. -/
def rollingMeanCenter (k : ℕ) (xs : List (Option ℚ)) : List (Option ℚ) :=
  (List.range xs.length).map
    (fun i =>
      let lo : ℤ := (i : ℤ) + (k / 2 : ℕ) - k + 1
      let window := (List.range k).map (fun j => lo + j)
      if window.all (fun z => decide (0 ≤ z) && decide (z < (xs.length : ℤ))) then
        let vals := window.map (fun z => xs.getD z.toNat none)
        if vals.all (fun v => v.isSome) then
          some ((vals.map (fun v => v.getD 0)).sum / (k : ℚ))
        else none
      else none)

/-- Line 299 of the source: attach the centred rolling mean of the
corrected envelope values as the `tmp_power` column, pairing each envelope
row (in the order the rows happen to be in) with the smoothed value at its
position. -/
def postSmoothCurve (k : ℕ) (env : List (ℚ × Option ℚ)) : List TRow :=
  List.zipWith (fun p t => TRow.mk p.1 p.2 t) env (rollingMeanCenter k (env.map Prod.snd))

/-- `get_clearskytemplate`: sort by day time, optionally pre-smooth the
power column, group by day time taking the maximum, multiply by the
percentile, alias the result as `tmp_power`, and optionally overwrite
`tmp_power` with its centred rolling mean.  The envelope rows are kept in
first-occurrence (= day-time) order here; the source performs the final
rolling mean on whatever row order `group_by` returns, without re-sorting
(see `c6_postsmooth_order_sensitive`). -/
def getClearskytemplate (prep smooth : Option ℕ) (pct : ℚ) (rows : List Row) : List TRow :=
  let sortedRows := sortDay rows
  let col0 : List (Option ℚ) := sortedRows.map (fun r => some r.power)
  let col1 := match prep with
    | some k => rollingMeanCenter k col0
    | none => col0
  let pairs := List.zip (sortedRows.map (fun r => dayTimeOf r.time)) col1
  let env := groupMaxByDayTime pairs
  let envC := env.map (fun p => (p.1, p.2.map (fun v => v * pct)))
  match smooth with
  | some k => postSmoothCurve k envC
  | none => envC.map (fun p => TRow.mk p.1 p.2 p.2)

/-- `join_asof(..., on="day_time", strategy="backward")` for one left key:
the template row with the greatest day-time not exceeding `dt`, if any. -/
def asofMatch : List TRow → ℚ → Option TRow
  | [], _ => none
  | tr :: l, dt =>
    let rest := asofMatch l dt
    if decide (tr.dayTime ≤ dt) then
      match rest with
      | none => some tr
      | some b => if decide (b.dayTime < tr.dayTime) then some tr else some b
    else rest

/-- The template value stored at an exact day-time key, if that key exists
in the curve. -/
def tmpAt (cst : List TRow) (dt : ℚ) : Option (Option ℚ) :=
  (cst.find? (fun tr => decide (tr.dayTime = dt))).map TRow.tmp

/-- A corrected envelope in day-time order. -/
def c6envA : List (ℚ × Option ℚ) := [(0, some 0), (1, some 3), (2, some 6), (3, some 9)]

/-- The same envelope rows with the first two buckets swapped — one of the
orders polars `group_by` may return, since it does not maintain order. -/
def c6envB : List (ℚ × Option ℚ) := [(1, some 3), (0, some 0), (2, some 6), (3, some 9)]

/-- C6.  The second centred moving-average is applied to the corrected
envelope in whatever row order `group_by` produced (the source never
re-sorts the envelope by day time before line 299), and the resulting
curve genuinely depends on that order: the same four buckets smoothed in
day-time order and in a permuted order give different template values at
day-time 0.  The claim's "buckets taken in day_time order" therefore holds
only when polars happens to return the groups sorted, which it does not
guarantee. -/
theorem c6_postsmooth_order_sensitive :
    c6envB.Perm c6envA ∧
    tmpAt (postSmoothCurve 3 c6envA) 0 ≠ tmpAt (postSmoothCurve 3 c6envB) 0 := by
  with_unfolding_all decide

/-- `comp_data` of line 227: align each day sample backward against the
template and keep only fully non-null pairs (`join_asof` followed by
`drop_nulls`, which also drops rows whose joined envelope or template value
is null).  Each pair is (real power, template power). -/
def compPairs (cst : List TRow) (sorted : List Row) : List (ℚ × ℚ) :=
  sorted.filterMap
    (fun r =>
      match asofMatch cst (dayTimeOf r.time) with
      | none => none
      | some tr =>
        match tr.power, tr.tmp with
        | some _, some tv => some (r.power, tv)
        | _, _ => none)

/-- Number of aligned pairs whose absolute deviation strictly exceeds
`max_dist` (`difs[difs > max_dist]` of `_check_distance`). -/
def exceedCount (comp : List (ℚ × ℚ)) (maxDist : ℚ) : ℕ :=
  (comp.filter (fun p => decide (maxDist < |p.1 - p.2|))).length

/-- `_check_distance`: reject iff the exceed count is strictly greater than
`n_max_exceeds`. -/
def checkDistance (comp : List (ℚ × ℚ)) (maxDist : ℚ) (nMax : ℤ) : Bool :=
  decide ((exceedCount comp maxDist : ℤ) ≤ nMax)

/-- The day is accepted by the correlation gate: at least two aligned
pairs, both aligned sequences non-constant (otherwise `np.corrcoef` is
NaN and the comparison is false), and the Pearson correlation strictly
above the threshold, written square-root-free as
`thr * sqrt (varNum xs * varNum ys) < covNum xs ys`. -/
def pearsonExceeds (comp : List (ℚ × ℚ)) (thr : ℚ) : Prop :=
  2 ≤ comp.length ∧ varNum (comp.map Prod.fst) ≠ 0 ∧ varNum (comp.map Prod.snd) ≠ 0 ∧
    (thr : ℝ) * Real.sqrt ((varNum (comp.map Prod.fst) : ℝ) * (varNum (comp.map Prod.snd) : ℝ))
      < (covNum (comp.map Prod.fst) (comp.map Prod.snd) : ℝ)

theorem corrGTb_iff_pearson (comp : List (ℚ × ℚ)) (thr : ℚ) :
    corrGTb (comp.map Prod.fst) (comp.map Prod.snd) thr = true ↔ pearsonExceeds comp thr := by
  rw [corrGTb_iff, pearsonExceeds, List.length_map]

/-- One output row: the untouched input row, the added `day_time` column
and the added `Corr` column.  The correlation scalar is represented
square-root-free by the triple `(covNum, varNum xs, varNum ys)`; the
correlation equals `covNum / sqrt (varNum xs * varNum ys)`. -/
structure OutRow where
  row : Row
  dayTime : ℚ
  corr : ℚ × ℚ × ℚ
deriving DecidableEq, Repr

/-- Placeholder row for `head?`/`getLast?`; day groups are nonempty in the
pipeline, so it is never read there. -/
def dfltRow : Row := ⟨0, 0, 0⟩

/-- Lines 211-246 of the source, for one calendar day: the quality gate
(sample count strictly above `min_points`; first and last power of the
day-time-sorted day at most `first_last_limit`; gap check) followed by the
template match (backward as-of alignment, correlation strictly above the
threshold, exceed count at most `n_max_exceeds`).  An accepted day yields
the day's sorted rows with the `day_time` and `Corr` columns attached; a
rejected day yields `none`.  A `none` gap threshold reaches the
`max_hole < None` comparison in the source, a `TypeError`, whenever the
day has at least 5 samples; it is modelled as rejection here, and run-level
theorems assume a set threshold. -/
def evalDay (minPts : ℤ) (fll : ℚ) (hole : Option ℚ) (thr maxDist : ℚ) (nMax : ℤ)
    (cst : List TRow) (drows : List Row) : Option (List OutRow) :=
  if minPts < (drows.length : ℤ) then
    let sorted := sortDay drows
    if decide ((sorted.head?.getD dfltRow).power ≤ fll)
        && decide ((sorted.getLast?.getD dfltRow).power ≤ fll) then
      let hc : Bool :=
        match hole with
        | some h => (badHolesCheck sorted h).1
        | none => false
      if hc then
        let comp := compPairs cst sorted
        let xs := comp.map Prod.fst
        let ys := comp.map Prod.snd
        if corrGTb xs ys thr then
          if checkDistance comp maxDist nMax then
            some (sorted.map
              (fun r => OutRow.mk r (dayTimeOf r.time) (covNum xs ys, varNum xs, varNum ys)))
          else none
        else none
      else none
    else none
  else none

/-- C3.  A calendar day that passed the quality gate is accepted (produces
a record) iff the Pearson correlation between its backward-aligned power
values and the template values is defined and strictly greater than
`corr_threshold`, and the number of aligned pairs whose absolute deviation
strictly exceeds `max_deviation` is at most `max_exceed_count`. -/
theorem c3_accept_iff (minPts : ℤ) (fll h thr maxDist : ℚ) (nMax : ℤ)
    (cst : List TRow) (drows : List Row)
    (h1 : minPts < (drows.length : ℤ))
    (h2 : ((sortDay drows).head?.getD dfltRow).power ≤ fll ∧
          ((sortDay drows).getLast?.getD dfltRow).power ≤ fll)
    (h3 : (badHolesCheck (sortDay drows) h).1 = true) :
    (evalDay minPts fll (some h) thr maxDist nMax cst drows).isSome ↔
      pearsonExceeds (compPairs cst (sortDay drows)) thr ∧
        (exceedCount (compPairs cst (sortDay drows)) maxDist : ℤ) ≤ nMax := by
  simp only [evalDay, if_pos h1]
  rw [if_pos (by simp [h2.1, h2.2])]
  rw [if_pos h3]
  cases hcorr : corrGTb ((compPairs cst (sortDay drows)).map Prod.fst)
      ((compPairs cst (sortDay drows)).map Prod.snd) thr with
  | false =>
    rw [if_neg Bool.false_ne_true]
    simp only [Option.isSome_none, Bool.false_eq_true, false_iff]
    rintro ⟨hp, _⟩
    have := (corrGTb_iff_pearson _ thr).mpr hp
    rw [hcorr] at this
    exact Bool.false_ne_true this
  | true =>
    rw [if_pos rfl]
    cases hdist : checkDistance (compPairs cst (sortDay drows)) maxDist nMax with
    | false =>
      rw [if_neg Bool.false_ne_true]
      simp only [Option.isSome_none, Bool.false_eq_true, false_iff]
      rintro ⟨_, hcnt⟩
      have : checkDistance (compPairs cst (sortDay drows)) maxDist nMax = true := by
        simpa [checkDistance] using hcnt
      rw [hdist] at this
      exact Bool.false_ne_true this
    | true =>
      rw [if_pos rfl]
      simp only [Option.isSome_some, true_iff]
      refine ⟨(corrGTb_iff_pearson _ thr).mp hcorr, ?_⟩
      simpa [checkDistance] using hdist

/-- The concrete template matching `gapRows` exactly. -/
def wCst : List TRow :=
  [⟨10, some 0, some 0⟩, ⟨100, some 5, some 5⟩, ⟨200, some 9, some 9⟩,
   ⟨300, some 5, some 5⟩, ⟨340, some 0, some 0⟩]

/-- Witness for `c3_accept_iff`: the gated day `gapRows` against the
template `wCst`. -/
theorem c3_accept_iff_witness :
    ((4 : ℤ) < (gapRows.length : ℤ) ∧
     (((sortDay gapRows).head?.getD dfltRow).power ≤ (1/10 : ℚ) ∧
      ((sortDay gapRows).getLast?.getD dfltRow).power ≤ (1/10 : ℚ)) ∧
     (badHolesCheck (sortDay gapRows) 150).1 = true) ∧
    ((evalDay 4 (1/10) (some 150) (1/2) 10 0 wCst gapRows).isSome ↔
      pearsonExceeds (compPairs wCst (sortDay gapRows)) (1/2) ∧
        (exceedCount (compPairs wCst (sortDay gapRows)) 10 : ℤ) ≤ 0) :=
  ⟨⟨by with_unfolding_all decide,
    ⟨by with_unfolding_all decide, by with_unfolding_all decide⟩,
    by with_unfolding_all decide⟩,
   c3_accept_iff 4 (1/10) 150 (1/2) 10 0 wCst gapRows
     (by with_unfolding_all decide)
     ⟨by with_unfolding_all decide, by with_unfolding_all decide⟩
     (by with_unfolding_all decide)⟩

/-- C8.  A day whose backward as-of alignment leaves fewer than 2 aligned
pairs is rejected — `evalDay` is a total function returning `none`, no
error is raised, and the surrounding loops (see `runWindow`/`runStream`)
simply continue with the remaining days. -/
theorem c8_few_pairs_rejected (minPts : ℤ) (fll : ℚ) (hole : Option ℚ)
    (thr maxDist : ℚ) (nMax : ℤ) (cst : List TRow) (drows : List Row)
    (h : (compPairs cst (sortDay drows)).length < 2) :
    evalDay minPts fll hole thr maxDist nMax cst drows = none := by
  have hfalse : corrGTb ((compPairs cst (sortDay drows)).map Prod.fst)
      ((compPairs cst (sortDay drows)).map Prod.snd) thr = false := by
    simp only [corrGTb, List.length_map]
    rw [decide_eq_false (by omega)]
    simp
  simp only [evalDay]
  split_ifs with a b c d e
  · rw [hfalse] at d
    exact absurd d Bool.false_ne_true
  all_goals rfl

/-- Witness for `c8_few_pairs_rejected`: an empty template leaves no
aligned pairs, and the day produces no record. -/
theorem c8_few_pairs_rejected_witness :
    (compPairs [] (sortDay gapRows)).length < 2 ∧
    evalDay 4 (1/10) (some 150) (1/2) 10 0 [] gapRows = none :=
  ⟨by with_unfolding_all decide,
   c8_few_pairs_rejected 4 (1/10) (some 150) (1/2) 10 0 [] gapRows
     (by with_unfolding_all decide)⟩

/-- Soundness of the backward as-of match: a `none` result means no
template row lies at or before `dt`; a `some tr` result is a template row
at or before `dt` whose day-time is maximal among those. -/
theorem asofMatch_spec (l : List TRow) (dt : ℚ) :
    (asofMatch l dt = none → ∀ u ∈ l, ¬ u.dayTime ≤ dt) ∧
    (∀ tr, asofMatch l dt = some tr →
      tr ∈ l ∧ tr.dayTime ≤ dt ∧ ∀ u ∈ l, u.dayTime ≤ dt → u.dayTime ≤ tr.dayTime) := by
  induction l with
  | nil =>
    constructor
    · intro _ u hu
      exact absurd hu (List.not_mem_nil u)
    · intro tr htr
      exact absurd htr (by simp [asofMatch])
  | cons hd l ih =>
    by_cases hhd : hd.dayTime ≤ dt
    · cases hrest : asofMatch l dt with
      | none =>
        have hval : asofMatch (hd :: l) dt = some hd := by
          simp [asofMatch, hrest, hhd]
        constructor
        · intro hnone
          rw [hval] at hnone
          exact absurd hnone (by simp)
        · intro tr htr
          rw [hval] at htr
          obtain rfl : hd = tr := by simpa using htr
          refine ⟨List.mem_cons_self _ _, hhd, ?_⟩
          intro u hu hule
          rcases List.mem_cons.mp hu with rfl | hu
          · exact le_refl _
          · exact absurd hule (ih.1 hrest u hu)
      | some b =>
        obtain ⟨hbmem, hble, hbmax⟩ := ih.2 b hrest
        by_cases hcmp : b.dayTime < hd.dayTime
        · have hval : asofMatch (hd :: l) dt = some hd := by
            simp [asofMatch, hrest, hhd, hcmp]
          constructor
          · intro hnone
            rw [hval] at hnone
            exact absurd hnone (by simp)
          · intro tr htr
            rw [hval] at htr
            obtain rfl : hd = tr := by simpa using htr
            refine ⟨List.mem_cons_self _ _, hhd, ?_⟩
            intro u hu hule
            rcases List.mem_cons.mp hu with rfl | hu
            · exact le_refl _
            · exact le_trans (hbmax u hu hule) hcmp.le
        · have hval : asofMatch (hd :: l) dt = some b := by
            simp [asofMatch, hrest, hhd, hcmp]
          constructor
          · intro hnone
            rw [hval] at hnone
            exact absurd hnone (by simp)
          · intro tr htr
            rw [hval] at htr
            obtain rfl : b = tr := by simpa using htr
            refine ⟨List.mem_cons_of_mem _ hbmem, hble, ?_⟩
            intro u hu hule
            rcases List.mem_cons.mp hu with rfl | hu
            · exact not_lt.mp hcmp
            · exact hbmax u hu hule
    · have hval : asofMatch (hd :: l) dt = asofMatch l dt := by
        simp [asofMatch, hhd]
      cases hrest : asofMatch l dt with
      | none =>
        constructor
        · intro _ u hu
          rcases List.mem_cons.mp hu with rfl | hu
          · exact hhd
          · exact ih.1 hrest u hu
        · intro tr htr
          rw [hval, hrest] at htr
          exact absurd htr (by simp)
      | some b =>
        obtain ⟨hbmem, hble, hbmax⟩ := ih.2 b hrest
        constructor
        · intro hnone
          rw [hval, hrest] at hnone
          exact absurd hnone (by simp)
        · intro tr htr
          rw [hval, hrest] at htr
          obtain rfl : b = tr := by simpa using htr
          refine ⟨List.mem_cons_of_mem _ hbmem, hble, ?_⟩
          intro u hu hule
          rcases List.mem_cons.mp hu with rfl | hu
          · exact absurd hule hhd
          · exact hbmax u hu hule

theorem asofMatch_isSome_of_mem (l : List TRow) (dt : ℚ) (tr0 : TRow)
    (h0 : tr0 ∈ l) (hle : tr0.dayTime ≤ dt) : ∃ tr, asofMatch l dt = some tr := by
  cases h : asofMatch l dt with
  | none => exact absurd hle ((asofMatch_spec l dt).1 h tr0 h0)
  | some tr => exact ⟨tr, rfl⟩

/-- With both smoothing kernels `None`, `get_clearskytemplate` is grouping,
percentile correction and the `tmp_power` alias. -/
theorem template_no_smoothing (pct : ℚ) (rows : List Row) :
    getClearskytemplate none none pct rows
      = ((groupMaxByDayTime (List.zip ((sortDay rows).map (fun r => dayTimeOf r.time))
            ((sortDay rows).map (fun r => some r.power)))).map
            (fun p => (p.1, p.2.map (fun v => v * pct)))).map
          (fun p => TRow.mk p.1 p.2 p.2) := rfl

/-- C7.  For a comparison window containing exactly one calendar day (all
samples on date `d`, with pairwise-distinct timestamps so that "the day's
power value at a day_time" is well defined) and both smoothing passes
disabled, the backward as-of match of the template at every sample's
day-time hits a template row at exactly that day-time whose `tmp_power`
value is the sample's power multiplied by the percentile. -/
theorem c7_single_day_template (pct : ℚ) (rows : List Row) (d : ℤ)
    (hday : ∀ r ∈ rows, dayOf r.time = d)
    (hinj : rows.Pairwise (fun a b => a.time ≠ b.time)) :
    ∀ r ∈ rows, ∃ tr,
      asofMatch (getClearskytemplate none none pct rows) (dayTimeOf r.time) = some tr ∧
      tr.dayTime = dayTimeOf r.time ∧ tr.tmp = some (r.power * pct) := by
  have hperm : (sortDay rows).Perm rows := List.perm_insertionSort _ rows
  have hdtinj : rows.Pairwise (fun a b => dayTimeOf a.time ≠ dayTimeOf b.time) := by
    refine List.Pairwise.imp_of_mem ?_ hinj
    intro a b ha hb hne he
    apply hne
    have hda := hday a ha
    have hdb := hday b hb
    have he' : a.time - 1440 * (dayOf a.time : ℚ) = b.time - 1440 * (dayOf b.time : ℚ) := he
    rw [hda, hdb] at he'
    linarith
  have hnodupRows : (rows.map (fun r => dayTimeOf r.time)).Nodup := by
    rw [List.Nodup, List.pairwise_map]
    exact hdtinj
  have hnodupSorted : ((sortDay rows).map (fun r => dayTimeOf r.time)).Nodup :=
    ((hperm.map _).nodup_iff).mpr hnodupRows
  have hpairs : List.zip ((sortDay rows).map (fun r => dayTimeOf r.time))
      ((sortDay rows).map (fun r => some r.power))
      = (sortDay rows).map (fun r => (dayTimeOf r.time, some r.power)) :=
    List.zip_map' _ _ _
  have henv : groupMaxByDayTime ((sortDay rows).map (fun r => (dayTimeOf r.time, some r.power)))
      = (sortDay rows).map (fun r => (dayTimeOf r.time, some r.power)) := by
    apply groupMax_nodup
    rw [List.map_map]
    exact hnodupSorted
  have htemp : getClearskytemplate none none pct rows
      = (sortDay rows).map
          (fun r => TRow.mk (dayTimeOf r.time) (some (r.power * pct)) (some (r.power * pct))) := by
    rw [template_no_smoothing, hpairs, henv, List.map_map, List.map_map]
    rfl
  intro r hr
  have hrs : r ∈ sortDay rows := hperm.mem_iff.mpr hr
  have h0 : TRow.mk (dayTimeOf r.time) (some (r.power * pct)) (some (r.power * pct))
      ∈ getClearskytemplate none none pct rows := by
    rw [htemp]
    exact List.mem_map_of_mem _ hrs
  obtain ⟨tr, htr⟩ :=
    asofMatch_isSome_of_mem (getClearskytemplate none none pct rows) (dayTimeOf r.time)
      (TRow.mk (dayTimeOf r.time) (some (r.power * pct)) (some (r.power * pct))) h0 (le_refl _)
  obtain ⟨hmem, hle, hmax⟩ := (asofMatch_spec _ _).2 tr htr
  have heq : tr.dayTime = dayTimeOf r.time :=
    le_antisymm hle (hmax _ h0 (le_refl _))
  refine ⟨tr, htr, heq, ?_⟩
  rw [htemp] at hmem
  obtain ⟨r', hr's, hmk⟩ := List.mem_map.mp hmem
  have hdtr' : dayTimeOf r'.time = dayTimeOf r.time := by
    rw [← heq, ← hmk]
  have hrr : r' = r := List.inj_on_of_nodup_map hnodupSorted hr's hrs hdtr'
  rw [← hmk, hrr]

/-- The single calendar day used as the C7 witness window. -/
def c7rows : List Row := [⟨600, 4, 1⟩, ⟨660, 6, 1⟩]

/-- Witness for `c7_single_day_template` at a two-sample day and
percentile 9/10. -/
theorem c7_single_day_template_witness :
    ((∀ r ∈ c7rows, dayOf r.time = 0) ∧ c7rows.Pairwise (fun a b => a.time ≠ b.time)) ∧
    (∀ r ∈ c7rows, ∃ tr,
      asofMatch (getClearskytemplate none none (9/10) c7rows) (dayTimeOf r.time) = some tr ∧
      tr.dayTime = dayTimeOf r.time ∧ tr.tmp = some (r.power * (9/10))) :=
  ⟨⟨by with_unfolding_all decide, by with_unfolding_all decide⟩,
   c7_single_day_template (9/10) c7rows 0
     (by with_unfolding_all decide) (by with_unfolding_all decide)⟩

/-- The caller arguments of `get_clearskydays` that are never resolved from
frequency buckets: the window length in days (`comparison_intervall`), the
percentile, `first_last_limit` and `corr_threshold`. -/
structure Fixed where
  w : ℕ
  pct : ℚ
  fll : ℚ
  thr : ℚ
deriving DecidableEq, Repr

/-- One accepted calendar day: stream id, date, window index and the day's
annotated rows (the unit that line 246 concatenates onto the result
frame). -/
structure DayRec where
  mid : ℤ
  date : ℤ
  window : ℤ
  rows : List OutRow
deriving DecidableEq, Repr

/-- Lines 199-246 for one comparison window: build the window's template,
then evaluate every calendar date occurring in the window.  Dates are taken
in first-occurrence order (`group_by("date")` leaves the order
unspecified).  After default resolution `minPts`, `nMax` and `maxDist` are
always set (`resolveDefaults` assigns every branch), so the `getD`
fallbacks are never observed in a pipeline run; the gap threshold genuinely
can remain `None` (see `resolveDefaults`) and is passed through as such. -/
def runWindow (fx : Fixed) (st : ResolveState) (i : ℤ) (k : ℤ) (wrows : List Row) :
    List DayRec :=
  let cst := getClearskytemplate st.prep st.smooth fx.pct wrows
  (firstUniq (wrows.map (fun r => dayOf r.time))).filterMap
    (fun d =>
      (evalDay (st.minPts.getD 0) fx.fll st.hole fx.thr (st.maxDist.getD 0) (st.nMax.getD 0)
          cst (wrows.filter (fun r => decide (dayOf r.time = d)))).map
        (fun outs => DayRec.mk i d k outs))

/-- Lines 188-198: split one stream into right-closed comparison windows
(in chronological order, since the stream is sorted by time first) and
process each. -/
def runStream (fx : Fixed) (st : ResolveState) (i : ℤ) (srows : List Row) : List DayRec :=
  (sortedZ (firstUniq (srows.map (fun r => windowOf fx.w r.time)))).flatMap
    (fun k => runWindow fx st i k (srows.filter (fun r => decide (windowOf fx.w r.time = k))))

/-- The stream loop of `get_clearskydays`: resolve the still-unset tunables
against each stream in turn (the state threads across iterations, see
`resolveChain`) and process the stream with the resulting state. -/
def runAll (fx : Fixed) (st0 : ResolveState) (streams : List (ℤ × List Row)) : List DayRec :=
  (streams.zip (resolveChain st0 streams)).flatMap
    (fun q => runStream fx q.2 q.1.1 q.1.2)

/-- `get_clearskydays`: partition the input by module id (`partition_by`
maintains first-occurrence order) and run the stream loop. -/
def getClearskydays (fx : Fixed) (st0 : ResolveState) (data : List Row) : List DayRec :=
  runAll fx st0
    ((firstUniq (data.map (fun r => r.mid))).map
      (fun i => (i, data.filter (fun r => decide (r.mid = i)))))

/-- The returned frame: the concatenation of all accepted days' rows
(`pl.concat` at line 246). -/
def clearSkyFrame (fx : Fixed) (st0 : ResolveState) (data : List Row) : List OutRow :=
  (getClearskydays fx st0 data).flatMap (fun rec => rec.rows)

/-- `with_columns(... .alias(c))` at the schema level: appends column `c`
unless it already exists (in which case it is replaced in place). -/
def withColumn (cols : List String) (c : String) : List String :=
  if c ∈ cols then cols else cols ++ [c]

/-- The output schema of `get_clearskydays` relative to the input columns:
line 212 (`add_daytime`) appends `day_time` when absent, line 245 appends
`Corr`. -/
def outputSchema (cols : List String) : List String :=
  withColumn (withColumn cols "day_time") "Corr"

/-- C4, counterexample.  For the default input columns
`time, power, module_id`, the returned frame carries TWO additional
columns, `day_time` and `Corr`, not exactly one. -/
theorem c4_counterexample :
    outputSchema ["time", "power", "module_id"]
      = ["time", "power", "module_id", "day_time", "Corr"] ∧
    (outputSchema ["time", "power", "module_id"]).length
      ≠ ["time", "power", "module_id"].length + 1 := by
  decide

/-- Shape of an accepted day's record: the rows are the day's rows in
day-time order, each carrying its own untouched input row, its day time,
and one correlation triple shared by the whole day. -/
theorem evalDay_some_elim {minPts : ℤ} {fll : ℚ} {hole : Option ℚ} {thr maxDist : ℚ}
    {nMax : ℤ} {cst : List TRow} {drows : List Row} {outs : List OutRow}
    (h : evalDay minPts fll hole thr maxDist nMax cst drows = some outs) :
    outs = (sortDay drows).map
      (fun r => OutRow.mk r (dayTimeOf r.time)
        (covNum ((compPairs cst (sortDay drows)).map Prod.fst)
            ((compPairs cst (sortDay drows)).map Prod.snd),
         varNum ((compPairs cst (sortDay drows)).map Prod.fst),
         varNum ((compPairs cst (sortDay drows)).map Prod.snd))) := by
  simp only [evalDay] at h
  split_ifs at h with a b c d e
  exact (Option.some_inj.mp h).symm

/-- When every sample of the day sits at day time 0, all aligned template
values coincide (they all come from the same backward match at 0). -/
theorem compPairs_snd_const (cst : List TRow) (sorted : List Row)
    (h : ∀ r ∈ sorted, dayTimeOf r.time = 0) :
    ∀ a ∈ (compPairs cst sorted).map Prod.snd,
      ∀ b ∈ (compPairs cst sorted).map Prod.snd, a = b := by
  cases hm : asofMatch cst 0 with
  | none =>
    have hnil : compPairs cst sorted = [] := by
      rw [compPairs, List.filterMap_eq_nil_iff]
      intro r hr
      rw [h r hr]
      simp only [hm]
    simp [hnil]
  | some tr =>
    cases hp : tr.power with
    | none =>
      have hnil : compPairs cst sorted = [] := by
        rw [compPairs, List.filterMap_eq_nil_iff]
        intro r hr
        rw [h r hr]
        simp only [hm, hp]
      simp [hnil]
    | some pv =>
      cases ht : tr.tmp with
      | none =>
        have hnil : compPairs cst sorted = [] := by
          rw [compPairs, List.filterMap_eq_nil_iff]
          intro r hr
          rw [h r hr]
          simp only [hm, hp, ht]
        simp [hnil]
      | some tv =>
        have key : ∀ x ∈ (compPairs cst sorted).map Prod.snd, x = tv := by
          intro x hx
          obtain ⟨p, hpmem, rfl⟩ := List.mem_map.mp hx
          obtain ⟨r, hr, hf⟩ := List.mem_filterMap.mp hpmem
          rw [h r hr] at hf
          simp only [hm, hp, ht] at hf
          obtain rfl : (r.power, tv) = p := by simpa using hf
          rfl
        intro a ha b hb
        rw [key a ha, key b hb]

/-- A day all of whose samples sit at day time 0 is never accepted: the
aligned template sequence is constant (or empty), so its scaled variance
vanishes and the correlation gate fails. -/
theorem evalDay_none_of_dayTime_zero (minPts : ℤ) (fll : ℚ) (hole : Option ℚ)
    (thr maxDist : ℚ) (nMax : ℤ) (cst : List TRow) (drows : List Row)
    (h : ∀ r ∈ drows, dayTimeOf r.time = 0) :
    evalDay minPts fll hole thr maxDist nMax cst drows = none := by
  have hsorted : ∀ r ∈ sortDay drows, dayTimeOf r.time = 0 := fun r hr =>
    h r ((List.perm_insertionSort _ drows).subset hr)
  have hvar : varNum ((compPairs cst (sortDay drows)).map Prod.snd) = 0 :=
    varNum_eq_zero_of_const _ (compPairs_snd_const cst (sortDay drows) hsorted)
  have hfalse : corrGTb ((compPairs cst (sortDay drows)).map Prod.fst)
      ((compPairs cst (sortDay drows)).map Prod.snd) thr = false := by
    simp only [corrGTb]
    rw [show decide (varNum ((compPairs cst (sortDay drows)).map Prod.snd) ≠ 0) = false from
      decide_eq_false (fun hne => hne hvar)]
    simp
  simp only [evalDay]
  split_ifs with a b c d e
  · rw [hfalse] at d
    exact absurd d Bool.false_ne_true
  all_goals rfl

/-- The boundary-split lemma: when two samples of the same calendar date
fall into different right-closed comparison windows, the window boundary is
the date's midnight, so every such sample in the earlier window sits
exactly at day time 0. -/
theorem midnight_split (w : ℕ) (hw : 0 < w) (t1 t2 : ℚ) (d : ℤ)
    (h1 : dayOf t1 = d) (h2 : dayOf t2 = d)
    (hk : windowOf w t1 < windowOf w t2) : dayTimeOf t1 = 0 := by
  have hwQ : (0 : ℚ) < (w : ℚ) := by exact_mod_cast hw
  have hW : (0 : ℚ) < 1440 * (w : ℚ) := by positivity
  have hk1 : windowOf w t1 = ⌈t1 / (1440 * (w : ℚ))⌉ := by
    rw [windowOf, qceil_eq]
  have hk2 : windowOf w t2 = ⌈t2 / (1440 * (w : ℚ))⌉ := by
    rw [windowOf, qceil_eq]
  have hd1 : (⌊t1 / (1440 : ℚ)⌋ : ℤ) = d := by
    rw [← h1, dayOf, qfloor_eq]
  have hd2 : (⌊t2 / (1440 : ℚ)⌋ : ℤ) = d := by
    rw [← h2, dayOf, qfloor_eq]
  have e1 : t1 ≤ (windowOf w t1 : ℚ) * (1440 * w) := by
    rw [hk1]
    exact (div_le_iff₀ hW).mp (Int.le_ceil _)
  have e2 : ((windowOf w t2 : ℚ) - 1) * (1440 * w) < t2 := by
    have hz : (windowOf w t2 - 1 : ℤ) < ⌈t2 / (1440 * (w : ℚ))⌉ := by
      rw [hk2]
      omega
    have := Int.lt_ceil.mp hz
    push_cast at this
    calc ((windowOf w t2 : ℚ) - 1) * (1440 * w)
        = ((windowOf w t2 : ℚ) - 1) * (1440 * w) := rfl
      _ < t2 := by
          rw [← lt_div_iff₀ hW]
          exact this
  have e3 : (d : ℚ) * 1440 ≤ t1 := by
    have hfl := Int.floor_le (t1 / (1440 : ℚ))
    rw [hd1] at hfl
    have := (le_div_iff₀ (by norm_num : (0:ℚ) < 1440)).mp hfl
    linarith
  have e4 : t2 < ((d : ℚ) + 1) * 1440 := by
    have hlt := Int.lt_floor_add_one (t2 / (1440 : ℚ))
    rw [hd2] at hlt
    have h' := (div_lt_iff₀ (by norm_num : (0:ℚ) < 1440)).mp hlt
    push_cast at h'
    linarith
  have hkz : (windowOf w t1 : ℤ) ≤ windowOf w t2 - 1 := by omega
  have hkzQ : (windowOf w t1 : ℚ) ≤ (windowOf w t2 : ℚ) - 1 := by
    have : ((windowOf w t1 : ℤ) : ℚ) ≤ ((windowOf w t2 - 1 : ℤ) : ℚ) := by
      exact_mod_cast hkz
    push_cast at this
    linarith
  have c1 : (d : ℚ) ≤ (windowOf w t1 : ℚ) * w := by
    nlinarith [e1, e3]
  have c2 : (windowOf w t1 : ℚ) * w < (d : ℚ) + 1 := by
    have hmono : (windowOf w t1 : ℚ) * (1440 * w) ≤ ((windowOf w t2 : ℚ) - 1) * (1440 * w) :=
      mul_le_mul_of_nonneg_right hkzQ hW.le
    nlinarith [e2, e4, hmono]
  have ci1 : d ≤ windowOf w t1 * (w : ℤ) := by
    have : (d : ℚ) ≤ ((windowOf w t1 * (w : ℤ) : ℤ) : ℚ) := by
      push_cast
      exact c1
    exact_mod_cast this
  have ci2 : windowOf w t1 * (w : ℤ) < d + 1 := by
    have : ((windowOf w t1 * (w : ℤ) : ℤ) : ℚ) < (d : ℚ) + 1 := by
      push_cast
      exact c2
    exact_mod_cast this
  have hkd : windowOf w t1 * (w : ℤ) = d := by omega
  have ht1 : t1 = (d : ℚ) * 1440 := by
    have hcast : ((windowOf w t1 : ℤ) : ℚ) * (w : ℚ) = (d : ℚ) := by
      exact_mod_cast hkd
    have heq : (windowOf w t1 : ℚ) * (1440 * (w : ℚ)) = (d : ℚ) * 1440 := by
      calc (windowOf w t1 : ℚ) * (1440 * (w : ℚ))
          = ((windowOf w t1 : ℚ) * (w : ℚ)) * 1440 := by ring
        _ = (d : ℚ) * 1440 := by rw [hcast]
    have hup : t1 ≤ (d : ℚ) * 1440 := by
      rw [← heq]
      exact e1
    exact le_antisymm hup e3
  rw [dayTimeOf, h1, ht1]
  ring

theorem runAll_nil (fx : Fixed) (st0 : ResolveState) : runAll fx st0 [] = [] := rfl

theorem runAll_cons (fx : Fixed) (st0 : ResolveState) (p : ℤ × List Row)
    (rest : List (ℤ × List Row)) :
    runAll fx st0 (p :: rest)
      = runStream fx (resolveDefaults st0 (frequenceOf p.2) (maxPower p.2)) p.1 p.2
        ++ runAll fx (resolveDefaults st0 (frequenceOf p.2) (maxPower p.2)) rest := by
  simp only [runAll, resolveChain]
  rfl

/-- Every record of a window run carries the window's ids and is the value
of `evalDay` on the date's rows within the window. -/
theorem runWindow_mem_elim {fx : Fixed} {st : ResolveState} {i k : ℤ} {wrows : List Row}
    {rec : DayRec} (h : rec ∈ runWindow fx st i k wrows) :
    rec.mid = i ∧ rec.window = k ∧ (∃ r ∈ wrows, dayOf r.time = rec.date) ∧
    evalDay (st.minPts.getD 0) fx.fll st.hole fx.thr (st.maxDist.getD 0) (st.nMax.getD 0)
        (getClearskytemplate st.prep st.smooth fx.pct wrows)
        (wrows.filter (fun r => decide (dayOf r.time = rec.date))) = some rec.rows := by
  simp only [runWindow, List.mem_filterMap] at h
  obtain ⟨d, hd, hopt⟩ := h
  rw [Option.map_eq_some'] at hopt
  obtain ⟨outs, he, hrec⟩ := hopt
  subst hrec
  refine ⟨rfl, rfl, ?_, he⟩
  have := (mem_firstUniq _ _).mp hd
  obtain ⟨r, hr, hdr⟩ := List.mem_map.mp this
  exact ⟨r, hr, hdr⟩

/-- The dates of a window's records form a sublist of the window's distinct
dates, hence are pairwise distinct. -/
theorem runWindow_dates_nodup (fx : Fixed) (st : ResolveState) (i k : ℤ)
    (wrows : List Row) : ((runWindow fx st i k wrows).map DayRec.date).Nodup := by
  have hsub : ((runWindow fx st i k wrows).map DayRec.date).Sublist
      (firstUniq (wrows.map (fun r => dayOf r.time))) := by
    simp only [runWindow]
    generalize firstUniq (wrows.map (fun r => dayOf r.time)) = l
    induction l with
    | nil => simp
    | cons d l ih =>
      rw [List.filterMap_cons]
      cases hg : evalDay (st.minPts.getD 0) fx.fll st.hole fx.thr (st.maxDist.getD 0)
          (st.nMax.getD 0) (getClearskytemplate st.prep st.smooth fx.pct wrows)
          (wrows.filter (fun r => decide (dayOf r.time = d))) with
      | none =>
        simp only [Option.map_none']
        exact ih.cons d
      | some outs =>
        simp only [Option.map_some', List.map_cons]
        exact ih.cons₂ d
  exact hsub.nodup (nodup_firstUniq _)

/-- Every record of a stream run carries the stream id, remembers a sample
of its (window, date) cell, and is the value of `evalDay` on that cell. -/
theorem runStream_mem_elim {fx : Fixed} {st : ResolveState} {i : ℤ} {srows : List Row}
    {rec : DayRec} (h : rec ∈ runStream fx st i srows) :
    rec.mid = i ∧
    (∃ r ∈ srows, windowOf fx.w r.time = rec.window ∧ dayOf r.time = rec.date) ∧
    evalDay (st.minPts.getD 0) fx.fll st.hole fx.thr (st.maxDist.getD 0) (st.nMax.getD 0)
        (getClearskytemplate st.prep st.smooth fx.pct
          (srows.filter (fun r => decide (windowOf fx.w r.time = rec.window))))
        ((srows.filter (fun r => decide (windowOf fx.w r.time = rec.window))).filter
          (fun r => decide (dayOf r.time = rec.date))) = some rec.rows := by
  simp only [runStream, List.mem_flatMap] at h
  obtain ⟨k, _, hrec⟩ := h
  obtain ⟨hmid, hwin, ⟨r, hr, hdr⟩, he⟩ := runWindow_mem_elim hrec
  subst hwin
  refine ⟨hmid, ⟨r, List.mem_of_mem_filter hr, ?_, hdr⟩, he⟩
  simpa using List.of_mem_filter hr

/-- Within one stream run the record dates are pairwise distinct: within a
window by construction, and across two windows because a date reaching two
right-closed windows leaves only midnight samples in the earlier one, whose
constant template alignment fails the correlation gate
(`evalDay_none_of_dayTime_zero`). -/
theorem runStream_dates_nodup (fx : Fixed) (hw : 0 < fx.w) (st : ResolveState) (i : ℤ)
    (srows : List Row) : ((runStream fx st i srows).map DayRec.date).Nodup := by
  rw [runStream, List.map_flatMap]
  rw [List.nodup_flatMap]
  constructor
  · intro k _
    exact runWindow_dates_nodup fx st i k _
  · have hlt : (sortedZ (firstUniq (srows.map (fun r => windowOf fx.w r.time)))).Pairwise
        (· < ·) := by
      have hsorted : (sortedZ (firstUniq (srows.map (fun r => windowOf fx.w r.time)))).Pairwise
          (· ≤ ·) := List.sorted_insertionSort _ _
      have hnd : (sortedZ (firstUniq (srows.map (fun r => windowOf fx.w r.time)))).Nodup :=
        ((List.perm_insertionSort _ _).nodup_iff).mpr (nodup_firstUniq _)
      exact (hsorted.and hnd).imp (fun hab => lt_of_le_of_ne hab.1 hab.2)
    refine hlt.imp ?_
    intro k1 k2 hk12 d hd1 hd2
    obtain ⟨rec1, hrec1, hdate1⟩ := List.mem_map.mp hd1
    obtain ⟨rec2, hrec2, hdate2⟩ := List.mem_map.mp hd2
    obtain ⟨_, _, _, he1⟩ := runWindow_mem_elim hrec1
    obtain ⟨_, _, ⟨r2, hr2, hdr2⟩, _⟩ := runWindow_mem_elim hrec2
    have hr2s : r2 ∈ srows := List.mem_of_mem_filter hr2
    have hr2w : windowOf fx.w r2.time = k2 := by
      simpa using List.of_mem_filter hr2
    rw [hdate2] at hdr2
    have hzero : ∀ r ∈ (srows.filter
        (fun r => decide (windowOf fx.w r.time = k1))).filter
        (fun r => decide (dayOf r.time = rec1.date)), dayTimeOf r.time = 0 := by
      intro r hr
      have hrd : dayOf r.time = rec1.date := by
        simpa using List.of_mem_filter hr
      have hrw : windowOf fx.w r.time = k1 := by
        simpa using List.of_mem_filter (List.mem_of_mem_filter hr)
      refine midnight_split fx.w hw r.time r2.time rec1.date hrd ?_ ?_
      · rw [← hdate1] at hdr2
        exact hdr2
      · rw [hrw, hr2w]
        exact hk12
    have := evalDay_none_of_dayTime_zero (st.minPts.getD 0) fx.fll st.hole fx.thr
      (st.maxDist.getD 0) (st.nMax.getD 0)
      (getClearskytemplate st.prep st.smooth fx.pct
        (srows.filter (fun r => decide (windowOf fx.w r.time = k1)))) _ hzero
    rw [this] at he1
    exact Option.noConfusion he1

theorem runAll_mem_elim {fx : Fixed} {st0 : ResolveState} {streams : List (ℤ × List Row)}
    {rec : DayRec} (h : rec ∈ runAll fx st0 streams) :
    ∃ st srows, (rec.mid, srows) ∈ streams ∧ rec ∈ runStream fx st rec.mid srows := by
  induction streams generalizing st0 with
  | nil =>
    rw [runAll_nil] at h
    exact absurd h (List.not_mem_nil rec)
  | cons p rest ih =>
    rw [runAll_cons] at h
    rcases List.mem_append.mp h with hl | hr
    · have hmid := (runStream_mem_elim hl).1
      refine ⟨resolveDefaults st0 (frequenceOf p.2) (maxPower p.2), p.2, ?_, ?_⟩
      · rw [hmid]
        exact List.mem_cons_self _ _
      · rw [hmid]
        exact hl
    · obtain ⟨st, srows, hmem, hrun⟩ := ih hr
      exact ⟨st, srows, List.mem_cons_of_mem _ hmem, hrun⟩

theorem runAll_mid_mem {fx : Fixed} {st0 : ResolveState} {streams : List (ℤ × List Row)}
    {rec : DayRec} (h : rec ∈ runAll fx st0 streams) :
    rec.mid ∈ streams.map Prod.fst := by
  obtain ⟨st, srows, hmem, _⟩ := runAll_mem_elim h
  exact List.mem_map_of_mem Prod.fst hmem

/-- Across the whole stream loop the (stream id, date) keys of the accepted
records are pairwise distinct, for any starting tunable state. -/
theorem runAll_keys_nodup (fx : Fixed) (hw : 0 < fx.w) :
    ∀ streams : List (ℤ × List Row), (streams.map Prod.fst).Nodup →
      ∀ st0 : ResolveState,
        ((runAll fx st0 streams).map (fun rec => (rec.mid, rec.date))).Nodup := by
  intro streams
  induction streams with
  | nil =>
    intro _ st0
    simp [runAll_nil]
  | cons p rest ih =>
    intro hnd st0
    simp only [List.map_cons, List.nodup_cons] at hnd
    obtain ⟨hp1, hrest⟩ := hnd
    rw [runAll_cons, List.map_append, List.nodup_append]
    refine ⟨?_, ih hrest _, ?_⟩
    · have hdn := runStream_dates_nodup fx hw
        (resolveDefaults st0 (frequenceOf p.2) (maxPower p.2)) p.1 p.2
      rw [List.Nodup, List.pairwise_map] at hdn ⊢
      exact hdn.imp (fun hne hke => hne (congrArg Prod.snd hke))
    · intro x hx1 hx2
      obtain ⟨rec1, hrec1, hk1⟩ := List.mem_map.mp hx1
      obtain ⟨rec2, hrec2, hk2⟩ := List.mem_map.mp hx2
      have hmid1 : rec1.mid = p.1 := (runStream_mem_elim hrec1).1
      have hmid2 : rec2.mid ∈ rest.map Prod.fst := runAll_mid_mem hrec2
      have hmm : rec1.mid = rec2.mid := by
        have := hk1.trans hk2.symm
        exact congrArg Prod.fst this
      apply hp1
      rw [← hmid1, hmm]
      exact hmid2

/-- Every record of a full run is the `evalDay` value of its own
(stream, window, date) cell of the input, under some tunable state. -/
theorem getClearskydays_mem_elim {fx : Fixed} {st0 : ResolveState} {data : List Row}
    {rec : DayRec} (h : rec ∈ getClearskydays fx st0 data) :
    ∃ st : ResolveState,
      evalDay (st.minPts.getD 0) fx.fll st.hole fx.thr (st.maxDist.getD 0) (st.nMax.getD 0)
        (getClearskytemplate st.prep st.smooth fx.pct
          ((data.filter (fun r => decide (r.mid = rec.mid))).filter
            (fun r => decide (windowOf fx.w r.time = rec.window))))
        (((data.filter (fun r => decide (r.mid = rec.mid))).filter
            (fun r => decide (windowOf fx.w r.time = rec.window))).filter
          (fun r => decide (dayOf r.time = rec.date))) = some rec.rows := by
  rw [getClearskydays] at h
  obtain ⟨st, srows, hmem, hrun⟩ := runAll_mem_elim h
  obtain ⟨i, _, heq⟩ := List.mem_map.mp hmem
  have hi : i = rec.mid := congrArg Prod.fst heq
  have hsrows : srows = data.filter (fun r => decide (r.mid = rec.mid)) := by
    have := congrArg Prod.snd heq
    simp only at this
    rw [← this, hi]
  rw [hsrows] at hrun
  exact ⟨st, (runStream_mem_elim hrun).2.2⟩

/-- Every row of the returned frame is an untouched input row, annotated
with its own day time. -/
theorem frame_row_mem {fx : Fixed} {st0 : ResolveState} {data : List Row} {o : OutRow}
    (ho : o ∈ clearSkyFrame fx st0 data) :
    o.row ∈ data ∧ o.dayTime = dayTimeOf o.row.time := by
  obtain ⟨rec, hrecm, hor⟩ := List.mem_flatMap.mp ho
  obtain ⟨st, he⟩ := getClearskydays_mem_elim hrecm
  rw [evalDay_some_elim he] at hor
  obtain ⟨r, hr, rfl⟩ := List.mem_map.mp hor
  refine ⟨?_, rfl⟩
  have hr' := (List.perm_insertionSort _ _).subset hr
  exact List.mem_of_mem_filter (List.mem_of_mem_filter (List.mem_of_mem_filter hr'))

/-- C4, amended.  The returned frame consists exactly of the input rows of
accepted clear-sky days: every output row is an input row with its original
values unchanged; each accepted day's record holds a permutation of
precisely the input rows of its (stream, window, date) cell; and the frame
carries two additional columns, `day_time` (the row's minute-of-day) and
`Corr` (the day's correlation, constant across the day's rows — the
correlation is `c / sqrt (dx * dy)` for the stored triple `(c, dx, dy)`). -/
theorem c4_output_rows (fx : Fixed) (st0 : ResolveState) (data : List Row) :
    (∀ o ∈ clearSkyFrame fx st0 data, o.row ∈ data ∧ o.dayTime = dayTimeOf o.row.time) ∧
    (∀ rec ∈ getClearskydays fx st0 data,
      (rec.rows.map OutRow.row).Perm
        (((data.filter (fun r => decide (r.mid = rec.mid))).filter
            (fun r => decide (windowOf fx.w r.time = rec.window))).filter
          (fun r => decide (dayOf r.time = rec.date))) ∧
      ∀ o1 ∈ rec.rows, ∀ o2 ∈ rec.rows, o1.corr = o2.corr) := by
  constructor
  · intro o ho
    exact frame_row_mem ho
  · intro rec hmem
    obtain ⟨st, he⟩ := getClearskydays_mem_elim hmem
    have hrows := evalDay_some_elim he
    constructor
    · have hmap : rec.rows.map OutRow.row
          = sortDay (((data.filter (fun r => decide (r.mid = rec.mid))).filter
              (fun r => decide (windowOf fx.w r.time = rec.window))).filter
            (fun r => decide (dayOf r.time = rec.date))) := by
        rw [hrows, List.map_map]
        exact List.map_id' _
      rw [hmap]
      exact List.perm_insertionSort _ _
    · intro o1 h1 o2 h2
      rw [hrows] at h1 h2
      obtain ⟨r1, _, rfl⟩ := List.mem_map.mp h1
      obtain ⟨r2, _, rfl⟩ := List.mem_map.mp h2
      rfl

/-- The fixed configuration used by the run-level witnesses: 30-day
windows, percentile 1, `first_last_limit` 1/10, `corr_threshold` 1/2. -/
def c4fx : Fixed := ⟨30, 1, 1/10, 1/2⟩

/-- Caller-set tunables for the run-level witnesses: `min_points` 4,
kernels 1 (identity smoothing), gap threshold 150, `max_exceed_count` 0,
`max_dist` 10. -/
def c4st : ResolveState := ⟨some 4, some 1, some 1, some 150, some 0, some 10⟩

/-- A five-sample clear day on date 0 of stream 1. -/
def c4data : List Row := [⟨10, 0, 1⟩, ⟨100, 5, 1⟩, ⟨200, 9, 1⟩, ⟨300, 5, 1⟩, ⟨340, 0, 1⟩]

/-- The record the pipeline accepts for `c4data`. -/
def c4rec : DayRec :=
  ⟨1, 0, 1,
   [⟨⟨10, 0, 1⟩, 10, (294, 294, 294)⟩, ⟨⟨100, 5, 1⟩, 100, (294, 294, 294)⟩,
    ⟨⟨200, 9, 1⟩, 200, (294, 294, 294)⟩, ⟨⟨300, 5, 1⟩, 300, (294, 294, 294)⟩,
    ⟨⟨340, 0, 1⟩, 340, (294, 294, 294)⟩]⟩

/-- Witness for `c4_output_rows` at a concrete accepted run. -/
theorem c4_output_rows_witness :
    ((⟨⟨10, 0, 1⟩, 10, (294, 294, 294)⟩ : OutRow) ∈ clearSkyFrame c4fx c4st c4data ∧
     ((⟨⟨10, 0, 1⟩, 10, (294, 294, 294)⟩ : OutRow).row ∈ c4data ∧
      (⟨⟨10, 0, 1⟩, 10, (294, 294, 294)⟩ : OutRow).dayTime
        = dayTimeOf (⟨⟨10, 0, 1⟩, 10, (294, 294, 294)⟩ : OutRow).row.time)) ∧
    (c4rec ∈ getClearskydays c4fx c4st c4data ∧
     ((c4rec.rows.map OutRow.row).Perm
        (((c4data.filter (fun r => decide (r.mid = c4rec.mid))).filter
            (fun r => decide (windowOf c4fx.w r.time = c4rec.window))).filter
          (fun r => decide (dayOf r.time = c4rec.date))) ∧
      ∀ o1 ∈ c4rec.rows, ∀ o2 ∈ c4rec.rows, o1.corr = o2.corr)) :=
  ⟨⟨by with_unfolding_all decide,
    (c4_output_rows c4fx c4st c4data).1 _ (by with_unfolding_all decide)⟩,
   ⟨by with_unfolding_all decide,
    (c4_output_rows c4fx c4st c4data).2 c4rec (by with_unfolding_all decide)⟩⟩

/-- C10.  The (stream id, date) pairs of the output rows all occur among
the (stream id, date) pairs of the input rows, and no (stream id, date)
pair is represented by more than one accepted day record.  The second part
holds because ids are partitioned, windows partition each stream, dates are
grouped uniquely within a window, and a date split across two right-closed
windows leaves only exact-midnight samples in the earlier window, which the
correlation gate always rejects. -/
theorem c10_partition_disjoint (fx : Fixed) (st0 : ResolveState) (data : List Row)
    (hw : 0 < fx.w) (hhole : st0.hole ≠ none) :
    (∀ o ∈ clearSkyFrame fx st0 data,
      (o.row.mid, dayOf o.row.time) ∈ data.map (fun r => (r.mid, dayOf r.time))) ∧
    ((getClearskydays fx st0 data).map (fun rec => (rec.mid, rec.date))).Nodup := by
  constructor
  · intro o ho
    exact List.mem_map_of_mem _ (frame_row_mem ho).1
  · rw [getClearskydays]
    apply runAll_keys_nodup fx hw
    rw [List.map_map]
    have hid : (Prod.fst ∘ fun i => (i, data.filter (fun r => decide (r.mid = i))))
        = id := rfl
    rw [hid, List.map_id]
    exact nodup_firstUniq _

/-- Witness for `c10_partition_disjoint` at the concrete accepted run. -/
theorem c10_partition_disjoint_witness :
    (0 < c4fx.w ∧ c4st.hole ≠ none) ∧
    ((∀ o ∈ clearSkyFrame c4fx c4st c4data,
        (o.row.mid, dayOf o.row.time) ∈ c4data.map (fun r => (r.mid, dayOf r.time))) ∧
     ((getClearskydays c4fx c4st c4data).map (fun rec => (rec.mid, rec.date))).Nodup) :=
  ⟨⟨by decide, by with_unfolding_all decide⟩,
   c10_partition_disjoint c4fx c4st c4data (by decide) (by with_unfolding_all decide)⟩

end ClearSky
